import Mathlib

/-!
Verification of the Eclipso in-place document redaction core.

Bytes are modelled as `List Nat` (each entry a byte value 0..255, overflow
irrelevant to the verified properties), text as `List Nat` of Unicode code
points.  Python slicing `b[i:j]` is `pySlice`, and the clamping slice
assignment `ba[i:j] = chunk` (with `len(chunk) = j - i`, growing the buffer
only when the range reaches past the end) is `sliceAssign`.  Fallible Python
code that raises is modelled with `Except String` / `Option`.  External
libraries (olefile stream reads, zlib, codecs) are not part of this
repository; where a function of the repository consumes their output, that
output is an explicit argument of the model.
-/

/-- Python `b[i:j]` on bytes/str: drop `i`, take `j - i`, clamping at both
ends. -/
def pySlice (l : List Nat) (i j : Nat) : List Nat :=
  (l.drop i).take (j - i)

/-- Python `ba[off:off+len(chunk)] = chunk` on a bytearray: positions are
clamped to the buffer, so a write whose range starts past the end appends at
the end. -/
def sliceAssign (ba : List Nat) (off : Nat) (chunk : List Nat) : List Nat :=
  ba.take off ++ chunk ++ ba.drop (off + chunk.length)

/-- Little-endian u16 read, `struct.unpack_from("<H", b, off)` (in-bounds at
every use site of the theorems below). -/
def readLE16 (l : List Nat) (off : Nat) : Nat :=
  l.getD off 0 + 256 * l.getD (off + 1) 0

/-- Little-endian u32 read, `struct.unpack_from("<I", b, off)`. -/
def readLE32 (l : List Nat) (off : Nat) : Nat :=
  l.getD off 0 + 256 * l.getD (off + 1) 0 + 65536 * l.getD (off + 2) 0 +
    16777216 * l.getD (off + 3) 0

/-- Little-endian u32 byte serialization (`struct.pack("<I", v)`). -/
def u32le (v : Nat) : List Nat :=
  [v % 256, v / 256 % 256, v / 65536 % 256, v / 16777216 % 256]

/-- `src/modules/chart_replacer.py::mask_same_len`: repeat `fill` to cover
`len(b)` bytes and cut at that length. -/
def mask_same_len (b : List Nat) (fill : List Nat) : List Nat :=
  if b = [] then b
  else ((List.replicate ((b.length + fill.length - 1) / fill.length) fill).flatten).take b.length

/-- `src/core/utils.py::pad_to_length`: right-pad with NULs or truncate to
`target` bytes. -/
def pad_to_length (blob : List Nat) (target : Nat) : List Nat :=
  if blob.length < target then blob ++ List.replicate (target - blob.length) 0
  else if target < blob.length then blob.take target
  else blob

/-- UTF-16LE encoding of one code point: 2 bytes in the BMP, 4 bytes
(surrogate pair) above it. -/
def utf16leChar (c : Nat) : List Nat :=
  if c < 65536 then [c % 256, c / 256 % 256]
  else
    [(55296 + (c - 65536) / 1024) % 256, (55296 + (c - 65536) / 1024) / 256 % 256,
     (56320 + (c - 65536) % 1024) % 256, (56320 + (c - 65536) % 1024) / 256 % 256]

/-- `text.encode("utf-16le")` over a list of code points. -/
def utf16leEncode (s : List Nat) : List Nat :=
  (s.map utf16leChar).flatten

/-- `bytes.find`'s match test: does `needle` occur at the head of `hay`? -/
def matchesAt : List Nat → List Nat → Bool
  | [], _ => true
  | _ :: _, [] => false
  | a :: as, b :: bs => a == b && matchesAt as bs

theorem matchesAt_length_le (needle hay : List Nat) (h : matchesAt needle hay = true) :
    needle.length ≤ hay.length := by
  induction needle generalizing hay with
  | nil => simp
  | cons a as ih =>
    cases hay with
    | nil => simp [matchesAt] at h
    | cons b bs =>
      simp only [matchesAt, Bool.and_eq_true] at h
      simpa using ih bs h.2

/-- The find/replace loop of `utf16_same_len_replace_with_logs`: repeatedly
find the next occurrence of `needle` (`ba.find(needle, i)`), overwrite it
with the same-length `repl` and resume after it.  Since an iteration only
mutates bytes before the resume point, the loop is the leftmost
non-overlapping textual replacement, modelled as a left-to-right scan.
Returns the new bytes and the replacement count. -/
def findReplaceAll (needle repl : List Nat) : List Nat → List Nat × Nat
  | [] => ([], 0)
  | x :: xs =>
    if h : needle ≠ [] ∧ matchesAt needle (x :: xs) then
      let r := findReplaceAll needle repl ((x :: xs).drop needle.length)
      (repl ++ r.1, r.2 + 1)
    else
      let r := findReplaceAll needle repl xs
      (x :: r.1, r.2)
  termination_by l => l.length
  decreasing_by
    · have : needle.length ≠ 0 := fun hn => h.1 (List.length_eq_zero.mp hn)
      simp only [List.length_drop, List.length_cons]
      omega
    · simp

/-- `src/core/encoding_replace.py::utf16_same_len_replace_with_logs`:
replace every UTF-16LE occurrence of `old` with `"*" * (n // 2)` encoded in
UTF-16LE (`n` the byte length of the encoded needle). -/
def utf16_same_len_replace_with_logs (data : List Nat) (old : List Nat) :
    List Nat × Nat :=
  let old_u16 := utf16leEncode old
  let n := old_u16.length
  if n = 0 then (data, 0)
  else findReplaceAll old_u16 (utf16leEncode (List.replicate (n / 2) 42)) data

theorem utf16leChar_length_even (c : Nat) : utf16leChar c = [c % 256, c / 256 % 256] ∨
    (utf16leChar c).length = 4 := by
  unfold utf16leChar
  by_cases h : c < 65536 <;> simp [h]

theorem utf16leChar_length (c : Nat) :
    (utf16leChar c).length = 2 ∨ (utf16leChar c).length = 4 := by
  unfold utf16leChar
  by_cases h : c < 65536 <;> simp [h]

theorem utf16leEncode_length_even (s : List Nat) : (utf16leEncode s).length % 2 = 0 := by
  induction s with
  | nil => simp [utf16leEncode]
  | cons c cs ih =>
    simp only [utf16leEncode, List.map_cons, List.flatten_cons, List.length_append]
    rcases utf16leChar_length c with h | h <;>
      · rw [Nat.add_mod, h]
        simpa [utf16leEncode] using ih

theorem findReplaceAll_length (needle repl : List Nat)
    (hlen : repl.length = needle.length) :
    ∀ data : List Nat, (findReplaceAll needle repl data).1.length = data.length := by
  intro data
  induction data using findReplaceAll.induct needle repl with
  | case1 => simp [findReplaceAll]
  | case2 x xs h ih =>
    rw [findReplaceAll]
    simp only [dif_pos h, List.length_append, hlen]
    have hle : needle.length ≤ (x :: xs).length := matchesAt_length_le _ _ h.2
    rw [ih]
    simp only [List.length_drop, List.length_cons] at hle ⊢
    omega
  | case3 x xs h ih =>
    rw [findReplaceAll]
    simp only [dif_neg h]
    simpa using ih

theorem utf16leEncode_replicate_star (k : Nat) :
    (utf16leEncode (List.replicate k 42)).length = 2 * k := by
  induction k with
  | zero => simp [utf16leEncode]
  | succ n ih =>
    simp only [List.replicate_succ, utf16leEncode, List.map_cons, List.flatten_cons,
      List.length_append] at ih ⊢
    have : utf16leChar 42 = [42, 0] := by decide
    rw [this]
    simp only [List.length_cons, List.length_nil] at ih ⊢
    omega

theorem ceil_mul_ge (n m : Nat) (hm : 0 < m) : n ≤ (n + m - 1) / m * m := by
  have h1 := Nat.div_add_mod (n + m - 1) m
  have h2 := Nat.mod_lt (n + m - 1) hm
  rw [mul_comm]
  set x := m * ((n + m - 1) / m) with hx
  set r := (n + m - 1) % m with hr
  omega

/-- C1: each masking primitive returns a byte string of exactly the byte
length of its input: `mask_same_len` for any nonempty fill (the default is
`b"*"`), `pad_to_length` returns exactly `target` bytes and is the identity
when `target` is the input's length, and
`utf16_same_len_replace_with_logs` preserves the buffer length for every
input and every needle text. -/
theorem C1_mask_length_invariant :
    (∀ b fill : List Nat, fill ≠ [] → (mask_same_len b fill).length = b.length) ∧
    (∀ (blob : List Nat) (target : Nat), (pad_to_length blob target).length = target) ∧
    (∀ blob : List Nat, pad_to_length blob blob.length = blob) ∧
    (∀ data old : List Nat,
      (utf16_same_len_replace_with_logs data old).1.length = data.length) := by
  refine ⟨?_, ?_, ?_, ?_⟩
  · intro b fill hfill
    unfold mask_same_len
    by_cases hb : b = []
    · simp [hb]
    · rw [if_neg hb]
      have hm : 0 < fill.length := List.length_pos.mpr hfill
      rw [List.length_take]
      have hflat : ((List.replicate ((b.length + fill.length - 1) / fill.length) fill).flatten).length
          = (b.length + fill.length - 1) / fill.length * fill.length := by
        rw [List.length_flatten, List.map_replicate]
        simp [List.sum_replicate, Nat.mul_comm]
      rw [hflat]
      exact Nat.min_eq_left (ceil_mul_ge b.length fill.length hm)
  · intro blob target
    unfold pad_to_length
    by_cases h1 : blob.length < target
    · simp only [if_pos h1, List.length_append, List.length_replicate]
      omega
    · by_cases h2 : target < blob.length
      · rw [if_neg h1, if_pos h2, List.length_take]
        omega
      · rw [if_neg h1, if_neg h2]
        omega
  · intro blob
    unfold pad_to_length
    simp
  · intro data old
    unfold utf16_same_len_replace_with_logs
    by_cases h0 : (utf16leEncode old).length = 0
    · simp [h0]
    · rw [if_neg h0]
      apply findReplaceAll_length
      rw [utf16leEncode_replicate_star]
      have heven := utf16leEncode_length_even old
      omega

/-- Witness for C1 at concrete inputs. -/
theorem C1_mask_length_invariant_witness :
    (mask_same_len [1, 2, 3] [42]).length = ([1, 2, 3] : List Nat).length ∧
    (pad_to_length [5, 6] 2).length = 2 ∧
    (utf16_same_len_replace_with_logs [65, 0, 66, 0] [65]).1.length = 4 :=
  ⟨C1_mask_length_invariant.1 [1, 2, 3] [42] (by decide),
   C1_mask_length_invariant.2.1 [5, 6] 2,
   by simpa using C1_mask_length_invariant.2.2.2 [65, 0, 66, 0] [65]⟩

/-- Python `bytes.find` over byte lists: index of the leftmost occurrence of
`needle`, `none` standing for Python's `-1`. -/
def bytesFind (needle : List Nat) : List Nat → Option Nat
  | [] => if needle = [] then some 0 else none
  | x :: xs =>
    if matchesAt needle (x :: xs) then some 0
    else (bytesFind needle xs).map (· + 1)

theorem bytesFind_bound (needle hay : List Nat) (p : Nat)
    (h : bytesFind needle hay = some p) : p + needle.length ≤ hay.length := by
  induction hay generalizing p with
  | nil =>
    unfold bytesFind at h
    by_cases hn : needle = [] <;> simp [hn] at h
    simp [hn, ← h]
  | cons x xs ih =>
    unfold bytesFind at h
    by_cases hm : matchesAt needle (x :: xs) = true
    · simp only [if_pos hm, Option.some.injEq] at h
      subst h
      simpa using matchesAt_length_le _ _ hm
    · simp only [if_neg hm, Option.map_eq_some'] at h
      obtain ⟨q, hq, hpq⟩ := h
      have := ih q hq
      simp only [List.length_cons]
      omega

/-- `src/server/modules/xls_module.py::overlay_workbook_stream`: locate the
original Workbook stream bytes inside the whole OLE file, raise
(`Except.error`) if the replacement has a different length, else splice the
new stream bytes over the old ones. -/
def overlay_workbook_stream (file_bytes orig_wb new_wb : List Nat) :
    Except String (List Nat) :=
  match bytesFind orig_wb file_bytes with
  | none => .ok file_bytes
  | some pos =>
    if orig_wb.length ≠ new_wb.length then .error "same-length overlay failed"
    else .ok (sliceAssign file_bytes pos new_wb)

/-- Python whitespace test used by `str.strip()` (ASCII whitespace; the
titular inputs are ASCII). -/
def pythonWhitespace (c : Nat) : Bool :=
  c = 32 || c = 9 || c = 10 || c = 13 || c = 11 || c = 12

/-- Python `s.strip()` on a list of code points. -/
def pythonStrip (s : List Nat) : List Nat :=
  ((s.dropWhile pythonWhitespace).reverse.dropWhile pythonWhitespace).reverse

/-- `src/server/hwp_redactor.py::redact` from the point where the extracted
text is in hand (the extraction itself goes through olefile/zlib, which are
external, so the extracted `full_text` is an argument; `apply_redaction_rules`
and UTF-8 encoding are likewise passed in).  The source returns `b""` when
the text strips to empty, else the UTF-8 encoding of the redacted text —
never a same-length container. -/
def hwp_redactor_redact_model (applyRules utf8enc : List Nat → List Nat)
    (full_text : List Nat) : List Nat :=
  if pythonStrip full_text = [] then [] else utf8enc (applyRules full_text)

theorem sliceAssign_length (ba : List Nat) (off : Nat) (chunk : List Nat)
    (h : off + chunk.length ≤ ba.length) :
    (sliceAssign ba off chunk).length = ba.length := by
  unfold sliceAssign
  simp only [List.length_append, List.length_take, List.length_drop]
  omega

/-- C2 counterexample: an HWP container (any nonempty file, e.g. 1536 zero
bytes) whose BodyText section yields no text makes `hwp_redactor.redact`
return `b""` — a buffer of length 0, not of the input file's length.  The
claim that every per-format `redact` entry point returns a buffer of
identical total file length is therefore false. -/
theorem C2_redact_counterexample :
    hwp_redactor_redact_model id id [] = [] ∧
    ([] : List Nat).length ≠ (List.replicate 1536 0).length := by
  constructor
  · rfl
  · simp only [List.length_nil, List.length_replicate]
    omega

/-- C2 amended: the XLS path does preserve the total file length — whenever
`overlay_workbook_stream` returns a buffer (rather than raising), that
buffer has exactly the input file's length — while the HWP entry points do
not return same-length containers at all (`hwp_redactor.redact` returns
`b""` whenever the extracted text strips to empty). -/
theorem C2_overlay_length_preserved :
    (∀ file_bytes orig_wb new_wb res : List Nat,
      overlay_workbook_stream file_bytes orig_wb new_wb = .ok res →
      res.length = file_bytes.length) ∧
    (∀ (applyRules utf8enc : List Nat → List Nat) (t : List Nat),
      pythonStrip t = [] → hwp_redactor_redact_model applyRules utf8enc t = []) := by
  constructor
  · intro file_bytes orig_wb new_wb res h
    unfold overlay_workbook_stream at h
    split at h
    · cases h
      rfl
    · rename_i pos hf
      split at h
      · cases h
      · rename_i hlen
        cases h
        have hb := bytesFind_bound orig_wb file_bytes pos hf
        apply sliceAssign_length
        omega
  · intro applyRules utf8enc t ht
    unfold hwp_redactor_redact_model
    rw [if_pos ht]

/-- Witness for C2's amended theorem at concrete inputs. -/
theorem C2_overlay_length_preserved_witness :
    ([1, 9, 3] : List Nat).length = ([1, 2, 3] : List Nat).length ∧
    hwp_redactor_redact_model id id [32] = [] :=
  ⟨C2_overlay_length_preserved.1 [1, 2, 3] [2] [9] [1, 9, 3] (by rfl),
   C2_overlay_length_preserved.2 id id [32] (by decide)⟩

/-- `src/core/ole_helper.py::ENDOFCHAIN`. -/
def ENDOFCHAIN : Nat := 4294967294

/-- One physical write of a chain walk: the sector it serves, the absolute
file offset, and the bytes copied there. -/
structure ChainWrite where
  sector : Nat
  off : Nat
  chunk : List Nat
  deriving DecidableEq, Repr

/-- The chain walk of `src/core/ole_helper.py::overwrite_bigfat`, emitting
the writes it performs.  olefile's FAT entries are unsigned 32-bit values,
so the Python guard `s != -1` can never fire and has no Nat counterpart
here.  `fuel` bounds the loop: `raw.length + 1` rounds always suffice since
`pos` grows by `sec` each round and a CFBF `sector_size` is 512 or 4096
(never 0, where the Python loop would not terminate either); the verified
properties below hold for every fuel. -/
def overwrite_bigfat_writes (fat : List Nat) (sec : Nat) (raw : List Nat) :
    Nat → Nat → Nat → List ChainWrite
  | _, _, 0 => []
  | s, pos, fuel + 1 =>
    if s = ENDOFCHAIN ∨ ¬ pos < raw.length then []
    else if fat.length ≤ s then []
    else
      ⟨s, (s + 1) * sec, pySlice raw pos (pos + sec)⟩ ::
        overwrite_bigfat_writes fat sec raw (fat.getD s 0) (pos + sec) fuel

/-- Replay a list of chain writes onto the container buffer (the loop bodies
`container[off:off+len(chunk)] = chunk`). -/
def applyChainWrites (container : List Nat) (ws : List ChainWrite) : List Nat :=
  ws.foldl (fun c w => sliceAssign c w.off w.chunk) container

/-- `src/core/ole_helper.py::overwrite_bigfat`: walk the FAT chain from
`start_sector` and scatter `raw` into the container sector by sector. -/
def overwrite_bigfat (fat : List Nat) (sec : Nat) (container : List Nat)
    (start_sector : Nat) (raw : List Nat) : List Nat :=
  applyChainWrites container
    (overwrite_bigfat_writes fat sec raw start_sector 0 (raw.length + 1))

/-- The `for _ in range(block_idx)` hop loop of
`src/core/ole_helper.py::big_sector_from_minioffset`:  follow the Root
Entry's big-sector chain `k` times, failing on `ENDOFCHAIN` or an
out-of-range sector (the Python `-1` case again cannot arise from unsigned
FAT entries). -/
def bsfm_go (fat : List Nat) : Nat → Nat → Option Nat
  | 0, s => some s
  | k + 1, s =>
    if s = ENDOFCHAIN ∨ fat.length ≤ s then none
    else bsfm_go fat k (fat.getD s 0)

/-- `src/core/ole_helper.py::big_sector_from_minioffset`: translate an
offset in the mini stream to (big sector, offset within that sector). -/
def big_sector_from_minioffset (fat : List Nat) (sec : Nat) (root_start : Nat)
    (mini_off : Nat) : Option (Nat × Nat) :=
  (bsfm_go fat (mini_off / sec) root_start).map (fun s => (s, mini_off % sec))

/-- The loop of `src/core/ole_helper.py::overwrite_minifat_chain`, emitting
the writes it performs together with the list of indices at which it reads
`minifat` (`s = minifat[s]`, taken only after the `s >= len(minifat)` guard;
note the source performs the current sector's write before that guard).
`root_start` is the Root Entry's `isectStart` (read via olefile). -/
def overwrite_minifat_go (fat minifat : List Nat) (sec minisize : Nat)
    (root_start : Nat) (raw : List Nat) :
    Nat → Nat → Nat → List ChainWrite × List Nat
  | _, _, 0 => ([], [])
  | s, pos, fuel + 1 =>
    if s = ENDOFCHAIN ∨ ¬ pos < raw.length then ([], [])
    else
      match big_sector_from_minioffset fat sec root_start (s * minisize) with
      | none => ([], [])
      | some (big, within) =>
        let w : ChainWrite := ⟨s, (big + 1) * sec + within, pySlice raw pos (pos + minisize)⟩
        if minifat.length ≤ s then ([w], [])
        else
          let r := overwrite_minifat_go fat minifat sec minisize root_start raw
            (minifat.getD s 0) (pos + minisize) fuel
          (w :: r.1, s :: r.2)

/-- `src/core/ole_helper.py::overwrite_minifat_chain` (after the Root Entry
lookup, whose `isectStart` is passed in). -/
def overwrite_minifat_chain (fat minifat : List Nat) (sec minisize : Nat)
    (root_start : Nat) (container : List Nat) (mini_start : Nat)
    (raw : List Nat) : List Nat :=
  applyChainWrites container
    (overwrite_minifat_go fat minifat sec minisize root_start raw
      mini_start 0 (raw.length + 1)).1

theorem getD_drop (l : List Nat) (m i : Nat) :
    (l.drop m).getD i 0 = l.getD (m + i) 0 := by
  induction m generalizing l with
  | zero => simp
  | succ n ih =>
    cases l with
    | nil => simp
    | cons x xs =>
      simp only [List.drop_succ_cons]
      rw [ih xs]
      have hsh : n + 1 + i = (n + i) + 1 := by omega
      rw [hsh, List.getD_cons_succ]

theorem getD_take (l : List Nat) (n i : Nat) (h : i < n) :
    (l.take n).getD i 0 = l.getD i 0 := by
  induction l generalizing n i with
  | nil => simp
  | cons x xs ih =>
    cases n with
    | zero => omega
    | succ m =>
      cases i with
      | zero => simp
      | succ j =>
        simp only [List.take_succ_cons, List.getD_cons_succ]
        exact ih m j (by omega)

theorem getD_append_left (l₁ l₂ : List Nat) (i : Nat) (h : i < l₁.length) :
    ((l₁ ++ l₂).getD i 0) = l₁.getD i 0 := by
  induction l₁ generalizing i with
  | nil => simp at h
  | cons x xs ih =>
    cases i with
    | zero => simp
    | succ j =>
      simp only [List.cons_append, List.getD_cons_succ]
      exact ih j (by simpa using h)

theorem getD_append_right' (l₁ l₂ : List Nat) (i : Nat) (h : l₁.length ≤ i) :
    ((l₁ ++ l₂).getD i 0) = l₂.getD (i - l₁.length) 0 := by
  induction l₁ generalizing i with
  | nil => simp
  | cons x xs ih =>
    cases i with
    | zero => simp at h
    | succ j =>
      simp only [List.cons_append, List.getD_cons_succ, List.length_cons]
      rw [ih j (by simpa using h)]
      congr 1
      omega

theorem sliceAssign_getD_outside (c : List Nat) (off : Nat) (chunk : List Nat)
    (i : Nat) (hi : i < c.length) (h : i < off ∨ off + chunk.length ≤ i) :
    (sliceAssign c off chunk).getD i 0 = c.getD i 0 := by
  unfold sliceAssign
  rw [List.append_assoc]
  rcases h with h | h
  · have h1 : i < (List.take off c).length := by
      rw [List.length_take]
      omega
    rw [getD_append_left _ _ i h1]
    exact getD_take c off i h
  · have hoff : off ≤ c.length := by omega
    have hlen : (List.take off c).length = off := by
      rw [List.length_take]
      omega
    have h1 : (List.take off c).length ≤ i := by omega
    rw [getD_append_right' _ _ i h1, hlen]
    have h2 : chunk.length ≤ i - off := by omega
    rw [getD_append_right' _ _ _ h2, getD_drop]
    congr 1
    omega

theorem sliceAssign_length_ge (c : List Nat) (off : Nat) (chunk : List Nat) :
    c.length ≤ (sliceAssign c off chunk).length := by
  unfold sliceAssign
  simp only [List.length_append, List.length_take, List.length_drop]
  omega

theorem applyChainWrites_outside (ws : List ChainWrite) (container : List Nat)
    (i : Nat) (hi : i < container.length)
    (h : ∀ w ∈ ws, i < w.off ∨ w.off + w.chunk.length ≤ i) :
    (applyChainWrites container ws).getD i 0 = container.getD i 0 := by
  induction ws generalizing container with
  | nil => rfl
  | cons w ws ih =>
    unfold applyChainWrites at ih ⊢
    simp only [List.foldl_cons]
    rw [ih (sliceAssign container w.off w.chunk)
      (lt_of_lt_of_le hi (sliceAssign_length_ge container w.off w.chunk))
      (fun v hv => h v (List.mem_cons_of_mem w hv))]
    exact sliceAssign_getD_outside container w.off w.chunk i hi (h w (List.mem_cons_self w ws))

theorem pySlice_length_le (l : List Nat) (i j : Nat) :
    (pySlice l i j).length ≤ j - i := by
  unfold pySlice
  simp only [List.length_take, List.length_drop]
  omega

theorem overwrite_bigfat_writes_sound (fat : List Nat) (sec : Nat) (raw : List Nat) :
    ∀ fuel s pos, ∀ w ∈ overwrite_bigfat_writes fat sec raw s pos fuel,
      w.sector < fat.length ∧ w.off = (w.sector + 1) * sec ∧ w.chunk.length ≤ sec := by
  intro fuel
  induction fuel with
  | zero => intro s pos w hw; simp [overwrite_bigfat_writes] at hw
  | succ n ih =>
    intro s pos w hw
    unfold overwrite_bigfat_writes at hw
    split at hw
    · simp at hw
    · split at hw
      · simp at hw
      · rename_i hguard hbound
        rcases List.mem_cons.mp hw with hw | hw
        · subst hw
          refine ⟨show s < fat.length by omega, rfl, ?_⟩
          show (pySlice raw pos (pos + sec)).length ≤ sec
          have := pySlice_length_le raw pos (pos + sec)
          omega
        · exact ih (fat.getD s 0) (pos + sec) w hw

theorem overwrite_bigfat_writes_stops (fat : List Nat) (sec : Nat) (raw : List Nat) :
    ∀ fuel s pos, fat.length ≤ s →
      overwrite_bigfat_writes fat sec raw s pos fuel = [] := by
  intro fuel s pos hs
  cases fuel with
  | zero => rfl
  | succ n =>
    unfold overwrite_bigfat_writes
    by_cases hg : s = ENDOFCHAIN ∨ ¬ pos < raw.length
    · rw [if_pos hg]
    · rw [if_neg hg, if_pos hs]

theorem overwrite_minifat_go_lookups (fat minifat : List Nat)
    (sec minisize root_start : Nat) (raw : List Nat) :
    ∀ fuel s pos,
      ∀ j ∈ (overwrite_minifat_go fat minifat sec minisize root_start raw s pos fuel).2,
        j < minifat.length := by
  intro fuel
  induction fuel with
  | zero => intro s pos j hj; simp [overwrite_minifat_go] at hj
  | succ n ih =>
    intro s pos j hj
    unfold overwrite_minifat_go at hj
    split at hj
    · simp at hj
    · split at hj
      · simp at hj
      · split at hj
        · simp at hj
        · rename_i hbound
          rcases List.mem_cons.mp hj with hj | hj
          · subst hj
            omega
          · exact ih (minifat.getD s 0) (pos + minisize) j hj

theorem overwrite_minifat_go_chunks (fat minifat : List Nat)
    (sec minisize root_start : Nat) (raw : List Nat) :
    ∀ fuel s pos,
      ∀ w ∈ (overwrite_minifat_go fat minifat sec minisize root_start raw s pos fuel).1,
        w.chunk.length ≤ minisize := by
  intro fuel
  induction fuel with
  | zero => intro s pos w hw; simp [overwrite_minifat_go] at hw
  | succ n ih =>
    intro s pos w hw
    unfold overwrite_minifat_go at hw
    split at hw
    · simp at hw
    · split at hw
      · simp at hw
      · rename_i big within heq
        have hlen : (pySlice raw pos (pos + minisize)).length ≤ minisize := by
          have := pySlice_length_le raw pos (pos + minisize)
          omega
        split at hw
        · simp only [List.mem_singleton] at hw
          subst hw
          exact hlen
        · rcases List.mem_cons.mp hw with hw | hw
          · subst hw
            exact hlen
          · exact ih (minifat.getD s 0) (pos + minisize) w hw

/-- C3: the FAT / MiniFAT chain walks of `ole_helper.py` never read an
allocation table at an out-of-range index, stop the walk as soon as an
out-of-range sector is reached, and the overwrites only touch container
bytes inside the chunk ranges resolved for visited sectors.  Concretely:
every write emitted by `overwrite_bigfat` carries a sector id strictly below
`len(fat)` at offset `(s+1)*sector_size` with at most one sector of bytes;
a start sector already out of range yields no writes at all; every MiniFAT
read performed by `overwrite_minifat_chain`'s loop is at an index strictly
below `len(minifat)` (and chunks are at most one mini sector); and any
container byte outside all resolved chunk ranges is left unchanged by both
overwrite functions. -/
theorem C3_chain_walk_safety (fat minifat : List Nat)
    (sec minisize root_start : Nat) (raw : List Nat) :
    (∀ fuel s pos, ∀ w ∈ overwrite_bigfat_writes fat sec raw s pos fuel,
      w.sector < fat.length ∧ w.off = (w.sector + 1) * sec ∧ w.chunk.length ≤ sec) ∧
    (∀ fuel s pos, fat.length ≤ s →
      overwrite_bigfat_writes fat sec raw s pos fuel = []) ∧
    (∀ fuel s pos,
      ∀ j ∈ (overwrite_minifat_go fat minifat sec minisize root_start raw s pos fuel).2,
        j < minifat.length) ∧
    (∀ fuel s pos,
      ∀ w ∈ (overwrite_minifat_go fat minifat sec minisize root_start raw s pos fuel).1,
        w.chunk.length ≤ minisize) ∧
    (∀ (container : List Nat) (start i : Nat), i < container.length →
      (∀ w ∈ overwrite_bigfat_writes fat sec raw start 0 (raw.length + 1),
        i < w.off ∨ w.off + w.chunk.length ≤ i) →
      (overwrite_bigfat fat sec container start raw).getD i 0 = container.getD i 0) ∧
    (∀ (container : List Nat) (start i : Nat), i < container.length →
      (∀ w ∈ (overwrite_minifat_go fat minifat sec minisize root_start raw
          start 0 (raw.length + 1)).1,
        i < w.off ∨ w.off + w.chunk.length ≤ i) →
      (overwrite_minifat_chain fat minifat sec minisize root_start container start raw).getD i 0
        = container.getD i 0) := by
  refine ⟨overwrite_bigfat_writes_sound fat sec raw,
    overwrite_bigfat_writes_stops fat sec raw,
    overwrite_minifat_go_lookups fat minifat sec minisize root_start raw,
    overwrite_minifat_go_chunks fat minifat sec minisize root_start raw, ?_, ?_⟩
  · intro container start i hi hw
    unfold overwrite_bigfat
    exact applyChainWrites_outside _ container i hi hw
  · intro container start i hi hw
    unfold overwrite_minifat_chain
    exact applyChainWrites_outside _ container i hi hw

/-- Witness for C3 on a concrete two-sector FAT chain. -/
theorem C3_chain_walk_safety_witness :
    ((⟨0, 2, [9, 9]⟩ : ChainWrite).sector < ([1, 4294967294] : List Nat).length ∧
      (⟨0, 2, [9, 9]⟩ : ChainWrite).off = ((⟨0, 2, [9, 9]⟩ : ChainWrite).sector + 1) * 2 ∧
      (⟨0, 2, [9, 9]⟩ : ChainWrite).chunk.length ≤ 2) ∧
    (overwrite_bigfat [1, 4294967294] 2 [7, 7, 7, 7, 7, 7, 7] 0 [9, 9, 9]).getD 0 0 = 7 := by
  constructor
  · exact (C3_chain_walk_safety [1, 4294967294] [] 2 0 0 [9, 9, 9]).1 4 0 0
      ⟨0, 2, [9, 9]⟩ (by decide)
  · have := (C3_chain_walk_safety [1, 4294967294] [] 2 0 0 [9, 9, 9]).2.2.2.2.1
      [7, 7, 7, 7, 7, 7, 7] 0 0 (by decide) (by decide)
    simpa using this

/-- General Python slice assignment `ba[lo:hi] = x` (any `x` length): the
slice, clamped to the buffer and to `lo ≤ hi`, is replaced by `x`. -/
def pySliceAssign (ba : List Nat) (lo hi : Nat) (x : List Nat) : List Nat :=
  ba.take lo ++ x ++ ba.drop (max lo hi)

theorem pySliceAssign_self (wb : List Nat) (lo hi : Nat) :
    pySliceAssign wb lo hi (pySlice wb lo hi) = wb := by
  unfold pySliceAssign pySlice
  rw [List.take_drop]
  have hM : lo + (hi - lo) = max lo hi := by omega
  rw [hM]
  have hlo : wb.take lo = (wb.take (max lo hi)).take lo := by
    rw [List.take_take]
    congr 1
    omega
  rw [hlo, List.take_append_drop, List.take_append_drop]

/-- A BIFF record as yielded by `iter_biff_records`:
`(opcode, length, payload, header offset)`. -/
structure BiffRec where
  opcode : Nat
  len : Nat
  payload : List Nat
  hdr : Nat
  deriving DecidableEq, Repr

/-- The loop of `iter_biff_records` (identical in
`src/server/modules/xls_module.py` and `src/server/modules/doc_chart.py`,
which differ only in the order of the yielded tuple): read a 4-byte
opcode/length header while at least 4 bytes remain, slice the payload
(clamped at the buffer end, as Python slicing is) and advance past it.
`fuel` bounds the loop; `data.length + 1` rounds always suffice since the
offset grows by at least 4 per record. -/
def iter_biff_go (data : List Nat) : Nat → Nat → List BiffRec
  | _, 0 => []
  | off, fuel + 1 =>
    if off + 4 ≤ data.length then
      ⟨readLE16 data off, readLE16 data (off + 2),
        pySlice data (off + 4) (off + 4 + readLE16 data (off + 2)), off⟩ ::
        iter_biff_go data (off + 4 + readLE16 data (off + 2)) fuel
    else []

/-- `iter_biff_records(data)` as a list. -/
def iter_biff_records (data : List Nat) : List BiffRec :=
  iter_biff_go data 0 (data.length + 1)

theorem pySlice_length (l : List Nat) (i j : Nat) :
    (pySlice l i j).length = min (j - i) (l.length - i) := by
  unfold pySlice
  simp only [List.length_take, List.length_drop]

/-- C5 counterexample: a 4-byte buffer that is a single record header
declaring `length = 5` with no payload bytes behind it.  The iterator
yields the record with an empty (truncated) payload, so
`payload.length = 0 ≠ 5 = length`, refuting `payload.length == length`
"including when the declared length would extend past the end of the
buffer". -/
theorem C5_biff_payload_counterexample :
    iter_biff_records [0, 0, 5, 0] = [⟨0, 5, [], 0⟩] ∧
    (⟨0, 5, [], 0⟩ : BiffRec).payload.length ≠ (⟨0, 5, [], 0⟩ : BiffRec).len := by
  constructor
  · rfl
  · decide

/-- C5 amended: every record yielded by the BIFF iterator satisfies
`payload.length = min(length, bytes remaining after the 4-byte header)` —
i.e. `payload.length = length` exactly when the declared length fits, and
the payload is truncated to the available bytes otherwise. -/
theorem C5_biff_payload_clamped (data : List Nat) :
    ∀ fuel off, ∀ r ∈ iter_biff_go data off fuel,
      r.payload.length = min r.len (data.length - (r.hdr + 4)) := by
  intro fuel
  induction fuel with
  | zero => intro off r hr; simp [iter_biff_go] at hr
  | succ n ih =>
    intro off r hr
    unfold iter_biff_go at hr
    split at hr
    · rcases List.mem_cons.mp hr with hr | hr
      · subst hr
        show (pySlice data (off + 4) (off + 4 + readLE16 data (off + 2))).length
          = min (readLE16 data (off + 2)) (data.length - (off + 4))
        rw [pySlice_length]
        congr 1
        omega
      · exact ih _ r hr
    · simp at hr

/-- Witness for C5's amended theorem at a concrete truncated record. -/
theorem C5_biff_payload_clamped_witness :
    (⟨0, 5, [], 0⟩ : BiffRec).payload.length
      = min (⟨0, 5, [], 0⟩ : BiffRec).len (([0, 0, 5, 0] : List Nat).length - ((⟨0, 5, [], 0⟩ : BiffRec).hdr + 4)) :=
  C5_biff_payload_clamped [0, 0, 5, 0] 5 0 ⟨0, 5, [], 0⟩ (by decide)

/-- The CONTINUE-scanning loop of
`src/server/modules/doc_chart.py::collect_continue_chuncks`: while at least
4 header bytes remain and the next opcode is CONTINUE (0x003C), slice its
payload (clamped at the buffer end) and record the `(payload_off,
payload_end)` segment.  `fuel` bounds the loop (`biff.length + 1` rounds
always suffice, the offset advancing by at least 4 per record). -/
def collect_cont_go (biff : List Nat) : Nat → Nat → List (List Nat) × List (Nat × Nat)
  | _, 0 => ([], [])
  | cur, fuel + 1 =>
    if cur + 4 ≤ biff.length then
      if readLE16 biff cur = 60 then
        let pe := cur + 4 + readLE16 biff (cur + 2)
        let r := collect_cont_go biff pe fuel
        (pySlice biff (cur + 4) pe :: r.1, (cur + 4, pe) :: r.2)
      else ([], [])
    else ([], [])

/-- `src/server/modules/doc_chart.py::collect_continue_chuncks`: the first
(string-bearing) record's payload chunk and segment, followed by the chunks
and segments of all immediately following CONTINUE records; `([], [])` if
the record at `off` is itself a CONTINUE. -/
def collect_continue_chuncks (biff : List Nat) (off : Nat) :
    List (List Nat) × List (Nat × Nat) :=
  if readLE16 biff off = 60 then ([], [])
  else
    let pe := off + 4 + readLE16 biff (off + 2)
    let r := collect_cont_go biff pe (biff.length + 1)
    (pySlice biff (off + 4) pe :: r.1, (off + 4, pe) :: r.2)

/-- The loop of `src/server/modules/doc_chart.py::coalesce_continue` from
its second iteration on: the record at `cur` (known to have 4 header bytes
available) is consumed, and the loop continues exactly when 4 more header
bytes remain after it and they declare a CONTINUE record.  Returns
`(merged payload, segments, final offset)`. -/
def coalesce_go (biff : List Nat) : Nat → Nat → List Nat × List (Nat × Nat) × Nat
  | cur, 0 => ([], [], cur)
  | cur, fuel + 1 =>
    let pe := cur + 4 + readLE16 biff (cur + 2)
    let payload := pySlice biff (cur + 4) pe
    if pe + 4 ≤ biff.length ∧ readLE16 biff pe = 60 then
      let r := coalesce_go biff pe fuel
      (payload ++ r.1, (cur + 4, pe) :: r.2.1, r.2.2)
    else (payload, [(cur + 4, pe)], pe)

/-- `src/server/modules/doc_chart.py::coalesce_continue`. -/
def coalesce_continue (biff : List Nat) (off : Nat) :
    List Nat × List (Nat × Nat) × Nat :=
  if off + 4 ≤ biff.length then
    if readLE16 biff off = 60 then ([], [], off)
    else coalesce_go biff off (biff.length + 1)
  else ([], [], off)

/-- The segment loop of
`src/server/modules/doc_chart.py::write_chunks_back_to_wb` (the same loop is
`writeBackMerged` of the specification): for each `(lo, hi)` segment, write
the next `hi - lo` bytes of the merged payload over `wb[lo:hi]` and advance
(`merged.drop`) past them. -/
def write_back_segs (wb merged : List Nat) : List (Nat × Nat) → List Nat
  | [] => wb
  | (lo, hi) :: rest =>
    write_back_segs (pySliceAssign wb lo hi (pySlice merged 0 (hi - lo)))
      (merged.drop (hi - lo)) rest

/-- `src/server/modules/doc_chart.py::write_chunks_back_to_wb`: join the
chunks and redistribute them over the segments. -/
def write_chunks_back_to_wb (wb : List Nat) (chunks : List (List Nat))
    (segs : List (Nat × Nat)) : List Nat :=
  write_back_segs wb chunks.flatten segs

theorem collect_cont_go_stop (biff : List Nat) (fuel cur : Nat)
    (h : ¬ cur + 4 ≤ biff.length) : collect_cont_go biff cur fuel = ([], []) := by
  cases fuel with
  | zero => rfl
  | succ n =>
    unfold collect_cont_go
    rw [if_neg h]

theorem pySlice_zero_take (merged : List Nat) (k : Nat) :
    pySlice merged 0 k = merged.take k := by
  unfold pySlice
  simp

theorem write_back_collect_go (biff : List Nat) :
    ∀ fuel cur,
      write_back_segs biff ((collect_cont_go biff cur fuel).1).flatten
        (collect_cont_go biff cur fuel).2 = biff := by
  intro fuel
  induction fuel with
  | zero => intro cur; rfl
  | succ n ih =>
    intro cur
    unfold collect_cont_go
    by_cases h4 : cur + 4 ≤ biff.length
    · rw [if_pos h4]
      by_cases hop : readLE16 biff cur = 60
      · rw [if_pos hop]
        set pe := cur + 4 + readLE16 biff (cur + 2) with hpe
        set c := pySlice biff (cur + 4) pe with hc
        by_cases hfit : pe ≤ biff.length
        · have hclen : c.length = pe - (cur + 4) := by
            rw [hc, pySlice_length]
            omega
          show write_back_segs biff (c :: (collect_cont_go biff pe n).1).flatten
            ((cur + 4, pe) :: (collect_cont_go biff pe n).2) = biff
          rw [List.flatten_cons]
          unfold write_back_segs
          rw [pySlice_zero_take, List.take_left' (by omega), List.drop_left' (by omega),
            hc, pySliceAssign_self]
          exact ih pe
        · have hr : collect_cont_go biff pe n = ([], []) :=
            collect_cont_go_stop biff n pe (by omega)
          have hclen : c.length ≤ pe - (cur + 4) := by
            rw [hc, pySlice_length]
            omega
          show write_back_segs biff (c :: (collect_cont_go biff pe n).1).flatten
            ((cur + 4, pe) :: (collect_cont_go biff pe n).2) = biff
          rw [hr]
          show write_back_segs biff (c :: ([] : List (List Nat))).flatten
            ((cur + 4, pe) :: ([] : List (Nat × Nat))) = biff
          rw [List.flatten_cons, List.flatten_nil, List.append_nil]
          unfold write_back_segs
          rw [pySlice_zero_take, List.take_of_length_le hclen, hc, pySliceAssign_self]
          rfl
      · rw [if_neg hop]
        rfl
    · rw [if_neg h4]
      rfl

theorem write_back_coalesce_go (biff : List Nat) :
    ∀ fuel cur, cur + 4 ≤ biff.length →
      write_back_segs biff (coalesce_go biff cur fuel).1
        (coalesce_go biff cur fuel).2.1 = biff := by
  intro fuel
  induction fuel with
  | zero => intro cur _; rfl
  | succ n ih =>
    intro cur h4
    unfold coalesce_go
    set pe := cur + 4 + readLE16 biff (cur + 2) with hpe
    set p := pySlice biff (cur + 4) pe with hp
    by_cases hcont : pe + 4 ≤ biff.length ∧ readLE16 biff pe = 60
    · rw [if_pos hcont]
      have hplen : p.length = pe - (cur + 4) := by
        rw [hp, pySlice_length]
        omega
      show write_back_segs biff (p ++ (coalesce_go biff pe n).1)
        ((cur + 4, pe) :: (coalesce_go biff pe n).2.1) = biff
      unfold write_back_segs
      rw [pySlice_zero_take, List.take_left' hplen, List.drop_left' hplen,
        hp, pySliceAssign_self]
      exact ih pe hcont.1
    · rw [if_neg hcont]
      have hplen : p.length ≤ pe - (cur + 4) := by
        rw [hp, pySlice_length]
        omega
      show write_back_segs biff p ((cur + 4, pe) :: ([] : List (Nat × Nat))) = biff
      unfold write_back_segs
      rw [pySlice_zero_take, List.take_of_length_le hplen, hp, pySliceAssign_self]
      rfl

/-- C4: collecting a string-bearing record's payload chunks together with
their `(start, end)` segments — whether through `collect_continue_chuncks`
or through `coalesce_continue` — and then writing the unmodified merged
payload back through the segment list (`write_chunks_back_to_wb`, resp. the
same segment loop fed the merged bytes directly) reproduces the original
BIFF buffer byte-for-byte, for every buffer and every record offset with a
complete 4-byte header. -/
theorem C4_continue_roundtrip (biff : List Nat) (off : Nat)
    (h : off + 4 ≤ biff.length) :
    write_chunks_back_to_wb biff (collect_continue_chuncks biff off).1
        (collect_continue_chuncks biff off).2 = biff ∧
    write_back_segs biff (coalesce_continue biff off).1
        (coalesce_continue biff off).2.1 = biff := by
  constructor
  · unfold collect_continue_chuncks
    by_cases hop : readLE16 biff off = 60
    · rw [if_pos hop]
      rfl
    · rw [if_neg hop]
      set pe := off + 4 + readLE16 biff (off + 2) with hpe
      set c := pySlice biff (off + 4) pe with hc
      by_cases hfit : pe ≤ biff.length
      · have hclen : c.length = pe - (off + 4) := by
          rw [hc, pySlice_length]
          omega
        show write_chunks_back_to_wb biff
          (c :: (collect_cont_go biff pe (biff.length + 1)).1)
          ((off + 4, pe) :: (collect_cont_go biff pe (biff.length + 1)).2) = biff
        unfold write_chunks_back_to_wb
        rw [List.flatten_cons]
        unfold write_back_segs
        rw [pySlice_zero_take, List.take_left' hclen, List.drop_left' hclen,
          hc, pySliceAssign_self]
        exact write_back_collect_go biff (biff.length + 1) pe
      · have hr : collect_cont_go biff pe (biff.length + 1) = ([], []) :=
          collect_cont_go_stop biff (biff.length + 1) pe (by omega)
        have hclen : c.length ≤ pe - (off + 4) := by
          rw [hc, pySlice_length]
          omega
        show write_chunks_back_to_wb biff
          (c :: (collect_cont_go biff pe (biff.length + 1)).1)
          ((off + 4, pe) :: (collect_cont_go biff pe (biff.length + 1)).2) = biff
        rw [hr]
        show write_chunks_back_to_wb biff (c :: ([] : List (List Nat)))
          ((off + 4, pe) :: ([] : List (Nat × Nat))) = biff
        unfold write_chunks_back_to_wb
        rw [List.flatten_cons, List.flatten_nil, List.append_nil]
        unfold write_back_segs
        rw [pySlice_zero_take, List.take_of_length_le hclen, hc, pySliceAssign_self]
        rfl
  · unfold coalesce_continue
    rw [if_pos h]
    by_cases hop : readLE16 biff off = 60
    · rw [if_pos hop]
      rfl
    · rw [if_neg hop]
      exact write_back_coalesce_go biff (biff.length + 1) off h

/-- Witness for C4 on a concrete buffer: a SERIES-text-like record
(opcode 4, length 2) followed by two CONTINUE records (lengths 1 and 0). -/
theorem C4_continue_roundtrip_witness :
    write_chunks_back_to_wb [4, 0, 2, 0, 170, 187, 60, 0, 1, 0, 204, 60, 0, 0, 0]
        (collect_continue_chuncks [4, 0, 2, 0, 170, 187, 60, 0, 1, 0, 204, 60, 0, 0, 0] 0).1
        (collect_continue_chuncks [4, 0, 2, 0, 170, 187, 60, 0, 1, 0, 204, 60, 0, 0, 0] 0).2
      = [4, 0, 2, 0, 170, 187, 60, 0, 1, 0, 204, 60, 0, 0, 0] ∧
    write_back_segs [4, 0, 2, 0, 170, 187, 60, 0, 1, 0, 204, 60, 0, 0, 0]
        (coalesce_continue [4, 0, 2, 0, 170, 187, 60, 0, 1, 0, 204, 60, 0, 0, 0] 0).1
        (coalesce_continue [4, 0, 2, 0, 170, 187, 60, 0, 1, 0, 204, 60, 0, 0, 0] 0).2.1
      = [4, 0, 2, 0, 170, 187, 60, 0, 1, 0, 204, 60, 0, 0, 0] :=
  C4_continue_roundtrip [4, 0, 2, 0, 170, 187, 60, 0, 1, 0, 204, 60, 0, 0, 0] 0 (by decide)

/-- `src/core/utils.py::bits`: `(v >> o) & ((1 << n) - 1)`. -/
def bits (v o n : Nat) : Nat :=
  (v >>> o) &&& (1 <<< n - 1)

/-- The loop of `src/core/record_parser.py::parse_records`: while at least 4
bytes remain, decode the packed u32 LE header into `tag = bits(h,0,10)`,
`level = bits(h,10,10)`, `size = bits(h,20,12)`; a size field of 0xFFF is an
escape, the real size being the next u32; a record reaching past the buffer
end is clipped to the buffer end (`data = raw[off:n]; off = n`, ending the
loop).  `fuel` bounds the loop; `raw.length + 1` rounds always suffice since
the offset advances by at least 4 per record. -/
def parse_records_go (raw : List Nat) : Nat → Nat → List (Nat × Nat × List Nat)
  | _, 0 => []
  | off, fuel + 1 =>
    if off < raw.length then
      if off + 4 > raw.length then []
      else
        let h := readLE32 raw off
        let tag := bits h 0 10
        let lvl := bits h 10 10
        let sz := bits h 20 12
        if sz = 4095 then
          if off + 4 + 4 > raw.length then []
          else
            let sz2 := readLE32 raw (off + 4)
            if off + 8 + sz2 > raw.length then [(tag, lvl, pySlice raw (off + 8) raw.length)]
            else (tag, lvl, pySlice raw (off + 8) (off + 8 + sz2)) ::
              parse_records_go raw (off + 8 + sz2) fuel
        else
          if off + 4 + sz > raw.length then [(tag, lvl, pySlice raw (off + 4) raw.length)]
          else (tag, lvl, pySlice raw (off + 4) (off + 4 + sz)) ::
            parse_records_go raw (off + 4 + sz) fuel
    else []

/-- `src/core/record_parser.py::parse_records`. -/
def parse_records (raw : List Nat) : List (Nat × Nat × List Nat) :=
  parse_records_go raw 0 (raw.length + 1)

theorem parse_records_go_past_end (raw : List Nat) (fuel off : Nat)
    (h : raw.length ≤ off) : parse_records_go raw off fuel = [] := by
  cases fuel with
  | zero => rfl
  | succ n =>
    unfold parse_records_go
    rw [if_neg (by omega)]

theorem pySlice_to_end (l : List Nat) (i j : Nat) (h : l.length ≤ j) :
    pySlice l i j = pySlice l i l.length := by
  unfold pySlice
  rcases le_or_lt i l.length with hi | hi
  · rw [List.take_of_length_le, List.take_of_length_le] <;>
      simp only [List.length_drop] <;> omega
  · rw [List.drop_of_length_le (by omega)]
    simp

/-- C6: one step of the HWP record parser.  For any buffer and any offset
with a complete 4-byte header, the parser decodes the header into the
`tag`/`level`/`size` bitfields; when the 12-bit size field is 0xFFF it reads
the next u32 as the real size (yielding nothing if those 4 bytes are
missing, as the source `break`s); and the record data is
`raw[pos : pos+size]` clipped to the buffer end — the parse never reads out
of bounds and always terminates (it is a total function), a record
overrunning the end simply becoming the truncated last record. -/
theorem C6_hwp_parse_step (raw : List Nat) (fuel off : Nat)
    (h : off + 4 ≤ raw.length) :
    parse_records_go raw off (fuel + 1) =
      (let hd := readLE32 raw off
       if bits hd 20 12 = 4095 then
         if off + 8 ≤ raw.length then
           (bits hd 0 10, bits hd 10 10,
             pySlice raw (off + 8) (off + 8 + readLE32 raw (off + 4))) ::
             parse_records_go raw (off + 8 + readLE32 raw (off + 4)) fuel
         else []
       else
         (bits hd 0 10, bits hd 10 10,
           pySlice raw (off + 4) (off + 4 + bits hd 20 12)) ::
           parse_records_go raw (off + 4 + bits hd 20 12) fuel) := by
  conv_lhs => unfold parse_records_go
  rw [if_pos (by omega : off < raw.length), if_neg (by omega : ¬ off + 4 > raw.length)]
  by_cases hesc : bits (readLE32 raw off) 20 12 = 4095
  · rw [if_pos hesc, if_pos hesc]
    by_cases h8 : off + 8 ≤ raw.length
    · rw [if_pos h8, if_neg (by omega : ¬ off + 4 + 4 > raw.length)]
      by_cases hclip : off + 8 + readLE32 raw (off + 4) > raw.length
      · rw [if_pos hclip, parse_records_go_past_end raw fuel _ (by omega),
          ← pySlice_to_end raw (off + 8) (off + 8 + readLE32 raw (off + 4)) (by omega)]
      · rw [if_neg hclip]
    · rw [if_neg h8, if_pos (by omega : off + 4 + 4 > raw.length)]
  · rw [if_neg hesc, if_neg hesc]
    by_cases hclip : off + 4 + bits (readLE32 raw off) 20 12 > raw.length
    · rw [if_pos hclip, parse_records_go_past_end raw fuel _ (by omega),
        ← pySlice_to_end raw (off + 4) (off + 4 + bits (readLE32 raw off) 20 12) (by omega)]
    · rw [if_neg hclip]

/-- Witness for C6: a header whose size field is the 0xFFF escape
(bytes `43 00 F0 FF`, i.e. `h = 0xFFF00043`, `tag = 67`, `level = 0`),
followed by the real size `5` as a u32, with only 3 data bytes left: the
parser reads the extended size and clips the record to the 3 available
bytes, terminating normally. -/
theorem C6_hwp_parse_step_witness :
    parse_records [67, 0, 240, 255, 5, 0, 0, 0, 1, 2, 3] = [(67, 0, [1, 2, 3])] := by
  have h := C6_hwp_parse_step [67, 0, 240, 255, 5, 0, 0, 0, 1, 2, 3] 11 0 (by decide)
  unfold parse_records
  rw [show ([67, 0, 240, 255, 5, 0, 0, 0, 1, 2, 3] : List Nat).length + 1 = 11 + 1 from rfl, h]
  decide

/-- C7 counterexample: decoding the header 0x04310043 with the documented
layout gives `level = bits(h,10,10) = 64`, not 0 as the claim states (bit 16
of the header, `0x00010000`, falls inside the level field `0x000FFC00`). -/
theorem C7_level_counterexample :
    bits 0x04310043 10 10 = 64 ∧ (64 : Nat) ≠ 0 := by
  decide

/-- C7 amended: decoding the HWP record header 0x04310043 with
`tag = bits(h,0,10)`, `level = bits(h,10,10)`, `size = bits(h,20,12)` yields
`tag = 67`, `level = 64` (not 0), `size = 0x43`; and on a buffer carrying
that header with 0x43 payload bytes, `parse_records` returns exactly that
record, its payload lying entirely inside the supplied buffer. -/
theorem C7_header_decode :
    bits 0x04310043 0 10 = 67 ∧ bits 0x04310043 10 10 = 64 ∧
    bits 0x04310043 20 12 = 0x43 ∧
    parse_records (u32le 0x04310043 ++ List.replicate 0x43 171) =
      [(67, 64, List.replicate 0x43 171)] ∧
    4 + 0x43 = (u32le 0x04310043 ++ List.replicate 0x43 171).length := by
  refine ⟨by decide, by decide, by decide, ?_, by decide⟩
  decide

/-- `src/server/modules/doc_module.py::_get_clx_data`: read `fcClx`/`lcbClx`
at the fixed FIB offsets 0x01A2/0x01A6 of the WordDocument stream and slice
the CLX out of the Table stream, `none` when the range reaches past the
Table stream's end. -/
def get_clx_data (word_data table_data : List Nat) : Option (List Nat) :=
  let fcClx := readLE32 word_data 0x01A2
  let lcbClx := readLE32 word_data 0x01A6
  if fcClx + lcbClx > table_data.length then none
  else some (pySlice table_data fcClx (fcClx + lcbClx))

/-- The loop of `src/server/modules/doc_module.py::_extract_plcpcd`: walk
the CLX's tagged sub-blocks (tag 0x01 carries a u16-length Grpprl block,
tag 0x02 returns the u32-length PlcPcd block); any other tag, or a length
field reaching past the CLX, ends the walk with an empty result.  `fuel`
bounds the loop (`clx.length + 1` rounds suffice, `i` advancing by at least
3 per tag-0x01 block). -/
def extract_plcpcd_go (clx : List Nat) : Nat → Nat → List Nat
  | _, 0 => []
  | i, fuel + 1 =>
    if i < clx.length then
      if clx.getD i 0 = 1 then
        if i + 1 + 2 > clx.length then []
        else extract_plcpcd_go clx (i + 1 + 2 + readLE16 clx (i + 1)) fuel
      else if clx.getD i 0 = 2 then
        if i + 1 + 4 > clx.length then []
        else pySlice clx (i + 5) (i + 5 + readLE32 clx (i + 1))
      else []
    else []

/-- `src/server/modules/doc_module.py::_extract_plcpcd`. -/
def extract_plcpcd (clx : List Nat) : List Nat :=
  extract_plcpcd_go clx 0 (clx.length + 1)

/-- A piece descriptor as produced by `_parse_plcpcd` (the source's dict
`{"index", "fc", "byte_count", "fCompressed"}`, the running index left
implicit in the list position). -/
structure Pcd where
  fc : Nat
  byte_count : Nat
  fCompressed : Bool
  deriving DecidableEq, Repr

/-- `src/server/modules/doc_module.py::_parse_plcpcd`: split the PlcPcd into
the `aCp` run boundaries and the 8-byte PCD records; `fc` is the PCD's u32
at offset 2 masked with 0x3FFFFFFF, `fCompressed` its 0x40000000 bit, and
`byte_count = (cpEnd - cpStart) * (fCompressed ? 1 : 2)`. -/
def parse_plcpcd (plcpcd : List Nat) : List Pcd :=
  let size := plcpcd.length
  if size < 4 ∨ (size - 4) % 12 ≠ 0 then []
  else
    let n := (size - 4) / 12
    (List.range n).map (fun k =>
      let pcd_off := 4 * (n + 1)
      let fc_raw := readLE32 plcpcd (pcd_off + 8 * k + 2)
      let fc := fc_raw &&& 0x3FFFFFFF
      let fCompressed := fc_raw &&& 0x40000000 ≠ 0
      let char_count := readLE32 plcpcd (4 * (k + 1)) - readLE32 plcpcd (4 * k)
      ⟨fc, if fCompressed then char_count else char_count * 2, fCompressed⟩)

/-- The specification's `locatePieces`: CLX extraction followed by PlcPcd
parsing, as composed by `extract_text` / `replace_text` of
`doc_module.py` — no pieces when the CLX range is out of the Table stream's
bounds. -/
def locatePieces (word_data table_data : List Nat) : List Pcd :=
  match get_clx_data word_data table_data with
  | none => []
  | some clx => parse_plcpcd (extract_plcpcd clx)

/-- `"\n".join(texts)`. -/
def joinNL (texts : List (List Nat)) : List Nat :=
  List.intercalate [10] texts

/-- `src/server/modules/doc_module.py::extract_text` from the point where
the WordDocument and Table stream bytes are in hand (the olefile reads are
external): empty text when the CLX is missing/out-of-range or the PlcPcd is
absent, else the pieces' byte ranges (skipping pieces past the
WordDocument's end) decoded and joined.  The cp1252/UTF-16LE piece decoding
and the final text normalization are external collaborators passed in as
functions; the claim-relevant branches never reach them. -/
def doc_extract_full_text (decodePiece : List Nat → Bool → List Nat)
    (normalize : List Nat → List Nat) (word_data table_data : List Nat) : List Nat :=
  match get_clx_data word_data table_data with
  | none => []
  | some clx =>
    if clx = [] then []
    else
      let plcpcd := extract_plcpcd clx
      if plcpcd = [] then []
      else
        let pieces := parse_plcpcd plcpcd
        let texts := pieces.filterMap (fun p =>
          if p.fc + p.byte_count > word_data.length then none
          else some (decodePiece (pySlice word_data p.fc (p.fc + p.byte_count)) p.fCompressed))
        normalize (joinNL texts)

/-- C8: whenever the FIB fields satisfy `fcClx + lcbClx > len(tableStream)`,
piece-table location returns no pieces and text extraction returns empty
text — both functions are total, so no exception is raised and no byte of
the Table stream is read. -/
theorem C8_clx_out_of_range (word_data table_data : List Nat)
    (h : readLE32 word_data 0x01A2 + readLE32 word_data 0x01A6 > table_data.length) :
    locatePieces word_data table_data = [] ∧
    ∀ (decodePiece : List Nat → Bool → List Nat) (normalize : List Nat → List Nat),
      doc_extract_full_text decodePiece normalize word_data table_data = [] := by
  have hclx : get_clx_data word_data table_data = none := by
    unfold get_clx_data
    rw [if_pos h]
  constructor
  · unfold locatePieces
    rw [hclx]
  · intro decodePiece normalize
    unfold doc_extract_full_text
    rw [hclx]

/-- Witness for C8: a 426-byte WordDocument stream whose FIB declares
`fcClx = 200`, `lcbClx = 0` against a 100-byte Table stream. -/
theorem C8_clx_out_of_range_witness :
    locatePieces (List.replicate 418 0 ++ u32le 200 ++ u32le 0) (List.replicate 100 0) = [] ∧
    doc_extract_full_text (fun t _ => t) (fun s => s)
      (List.replicate 418 0 ++ u32le 200 ++ u32le 0) (List.replicate 100 0) = [] := by
  have h := C8_clx_out_of_range (List.replicate 418 0 ++ u32le 200 ++ u32le 0)
    (List.replicate 100 0) (by decide)
  exact ⟨h.1, h.2 (fun t _ => t) (fun s => s)⟩

/-- `src/server/modules/xls_module.py::mask_except_hypen`: every character
of the segment becomes `'*'` except `'-'` (code 45), which is kept. -/
def mask_except_hypen (s : List Nat) : List Nat :=
  s.map (fun c => if c = 45 then 45 else 42)

theorem mask_except_hypen_length (s : List Nat) :
    (mask_except_hypen s).length = s.length := by
  unfold mask_except_hypen
  exact List.length_map s _

/-- `ch.encode("latin1", errors="ignore")`: one byte below 0x100, dropped
otherwise. -/
def latin1EncodeChar (c : Nat) : List Nat :=
  if c < 256 then [c] else []

/-- `ch.encode("utf-16le", errors="ignore")`: a lone surrogate code point is
unencodable and dropped, anything else encodes to 2 or 4 bytes. -/
def utf16leEncodeCharIgnore (c : Nat) : List Nat :=
  if 55296 ≤ c ∧ c < 57344 then [] else utf16leChar c

/-- `src/server/modules/xls_module.py::encode_masked_text` (source argument
order `(text, fHigh)`; `fHigh` comes first here so the recursion is over the
text): encode each character in the width selected by `fHigh` and raise
(`Except.error`) as soon as one character's encoding is not exactly
`char_size` bytes. -/
def encode_masked_text (fHigh : Nat) : List Nat → Except String (List Nat)
  | [] => .ok []
  | c :: rest =>
    let encoded := if fHigh ≠ 0 then utf16leEncodeCharIgnore c else latin1EncodeChar c
    if encoded.length = (if fHigh ≠ 0 then 2 else 1) then
      match encode_masked_text fHigh rest with
      | .ok tail => .ok (encoded ++ tail)
      | .error e => .error e
    else .error "char width mismatch"

/-- Stable descending insertion (by span start) into an already descending
list: the Lean counterpart of Python's
`sorted(spans, key=lambda x: x[0], reverse=True)`, which keeps the original
order of spans with equal starts. -/
def insertDesc (x : Nat × Nat) : List (Nat × Nat) → List (Nat × Nat)
  | [] => [x]
  | y :: ys => if x.1 ≤ y.1 then y :: insertDesc x ys else x :: y :: ys

/-- Stable sort by start, descending. -/
def sortSpansDesc (spans : List (Nat × Nat)) : List (Nat × Nat) :=
  spans.foldl (fun acc x => insertDesc x acc) []

/-- The per-span write `chars[s+i] = masked[i]` loop of `redact_xlucs`
(`List.set` is total where Python would raise `IndexError`; the span
indices, produced by the normalization index map, lie inside the text in
every reachable call). -/
def applyMaskAt (chars : List Nat) (s : Nat) (masked : List Nat) : List Nat :=
  (List.range masked.length).foldl (fun cs i => cs.set (s + i) (masked.getD i 0)) chars

/-- One span of the `redact_xlucs` loop: map the normalized span ends back
through the index map (skipping the span if either end is unmapped), mask
the original segment hyphen-preservingly, raise on a length mismatch (the
source `raise ValueError`), else write the mask over the span. -/
def redact_xlucs_step (text : List Nat) (imap : Nat → Option Nat)
    (chars : List Nat) (span : Nat × Nat) : Except String (List Nat) :=
  match imap span.1, imap (span.2 - 1) with
  | some s, some e' =>
    let e := e' + 1
    let original_seg := pySlice text s e
    let masked_seg := mask_except_hypen original_seg
    if masked_seg.length ≠ original_seg.length then Except.error "mask length mismatch"
    else Except.ok (applyMaskAt chars s masked_seg)
  | _, _ => Except.ok chars

/-- `src/server/modules/xls_module.py::redact_xlucs`.  The normalization
(`normalization_index`) and PII matching (`find_sensitive_spans`) are the
external collaborators of the specification's section 6 and are passed in:
`normIdx` returns the normalized text and the normalized-to-raw index map,
`findSpans` the sensitive spans, of which only `(start, end)` are consumed
by this function. -/
def redact_xlucs (normIdx : List Nat → List Nat × (Nat → Option Nat))
    (findSpans : List Nat → List (Nat × Nat)) (text : List Nat) :
    Except String (List Nat) :=
  if text = [] then .ok text
  else
    let spans := findSpans (normIdx text).1
    if spans = [] then .ok text
    else (sortSpansDesc spans).foldlM (redact_xlucs_step text (normIdx text).2) text

/-- The CONTINUE-aware byte patch loop of `xls_module.py::redact`:
`wb[pos] = raw[i]` for each recorded byte position. -/
def writeBytePositions (wb : List Nat) (positions raw : List Nat) : List Nat :=
  (List.range positions.length).foldl
    (fun b i => b.set (positions.getD i 0) (raw.getD i 0)) wb

/-- One parsed SST string as consumed by `xls_module.py::redact`: the
decoded text, the `fHighByte` flag and the absolute Workbook byte positions
of its text bytes (`XLUCSString.byte_positions`). -/
structure XLUCSRec where
  text : List Nat
  fHigh : Nat
  byte_positions : List Nat

/-- The SST loop of `src/server/modules/xls_module.py::redact` over the
parsed strings: redact each string's text, raise if the character count
changed, encode it back (which itself raises on any character of the wrong
width), raise if the encoded length differs from the recorded byte
positions, else patch the bytes and continue.  An `Except.error` models the
uncaught `ValueError` of the source, which aborts the whole document's
redaction. -/
def redact_sst_loop (normIdx : List Nat → List Nat × (Nat → Option Nat))
    (findSpans : List Nat → List (Nat × Nat)) :
    List Nat → List XLUCSRec → Except String (List Nat)
  | wb, [] => .ok wb
  | wb, x :: rest =>
    match redact_xlucs normIdx findSpans x.text with
    | .error e => .error e
    | .ok red =>
      if red.length ≠ x.text.length then .error "char count mismatch"
      else
        match encode_masked_text x.fHigh red with
        | .error e => .error e
        | .ok raw =>
          if raw.length ≠ x.byte_positions.length then .error "raw length mismatch"
          else redact_sst_loop normIdx findSpans
            (writeBytePositions wb x.byte_positions raw) rest

theorem applyMaskAt_length (chars : List Nat) (s : Nat) (masked : List Nat) :
    (applyMaskAt chars s masked).length = chars.length := by
  unfold applyMaskAt
  generalize List.range masked.length = l
  induction l generalizing chars with
  | nil => rfl
  | cons i l ih =>
    simp only [List.foldl_cons]
    rw [ih (chars.set (s + i) (masked.getD i 0))]
    exact List.length_set chars (s + i) (masked.getD i 0)

theorem redact_xlucs_step_ok (text : List Nat) (imap : Nat → Option Nat)
    (chars : List Nat) (span : Nat × Nat) :
    ∃ res, redact_xlucs_step text imap chars span = Except.ok res ∧
      res.length = chars.length := by
  unfold redact_xlucs_step
  cases h1 : imap span.1 with
  | none => exact ⟨chars, rfl, rfl⟩
  | some s =>
    cases h2 : imap (span.2 - 1) with
    | none => exact ⟨chars, rfl, rfl⟩
    | some e' =>
      refine ⟨applyMaskAt chars s (mask_except_hypen (pySlice text s (e' + 1))), ?_, ?_⟩
      · dsimp only
        rw [if_neg]
        intro hne
        exact hne (mask_except_hypen_length _)
      · exact applyMaskAt_length _ _ _

theorem redact_xlucs_fold_ok (text : List Nat) (imap : Nat → Option Nat) :
    ∀ (spans : List (Nat × Nat)) (chars : List Nat),
      ∃ res, spans.foldlM (redact_xlucs_step text imap) chars = Except.ok res ∧
        res.length = chars.length := by
  intro spans
  induction spans with
  | nil => intro chars; exact ⟨chars, rfl, rfl⟩
  | cons sp rest ih =>
    intro chars
    obtain ⟨mid, hmid, hmidlen⟩ := redact_xlucs_step_ok text imap chars sp
    obtain ⟨res, hres, hreslen⟩ := ih mid
    refine ⟨res, ?_, by omega⟩
    rw [List.foldlM_cons, hmid]
    exact hres

theorem redact_xlucs_ok (normIdx : List Nat → List Nat × (Nat → Option Nat))
    (findSpans : List Nat → List (Nat × Nat)) (text : List Nat) :
    ∃ red, redact_xlucs normIdx findSpans text = Except.ok red ∧
      red.length = text.length := by
  unfold redact_xlucs
  by_cases h0 : text = []
  · rw [if_pos h0]
    exact ⟨text, rfl, rfl⟩
  · rw [if_neg h0]
    by_cases hsp : findSpans (normIdx text).1 = []
    · rw [if_pos hsp]
      exact ⟨text, rfl, rfl⟩
    · rw [if_neg hsp]
      exact redact_xlucs_fold_ok text (normIdx text).2 (sortSpansDesc _) text

/-- C9 amended: when a computed replacement's encoded byte length does not
match the original span of byte positions, the XLS redaction does not skip
that one span — it raises (`ValueError` in the source, `Except.error`
here), aborting the redaction of the entire document: the remaining SST
strings are never processed and no redacted buffer is produced. -/
theorem C9_length_mismatch_aborts_document
    (normIdx : List Nat → List Nat × (Nat → Option Nat))
    (findSpans : List Nat → List (Nat × Nat))
    (wb red raw : List Nat) (x : XLUCSRec) (rest : List XLUCSRec)
    (hred : redact_xlucs normIdx findSpans x.text = Except.ok red)
    (henc : encode_masked_text x.fHigh red = Except.ok raw)
    (hmis : raw.length ≠ x.byte_positions.length) :
    redact_sst_loop normIdx findSpans wb (x :: rest) = .error "raw length mismatch" := by
  obtain ⟨red', hred', hlen⟩ := redact_xlucs_ok normIdx findSpans x.text
  rw [hred] at hred'
  cases hred'
  unfold redact_sst_loop
  rw [hred]
  dsimp only
  rw [if_neg (by omega : ¬ red.length ≠ x.text.length)]
  rw [henc]
  dsimp only
  rw [if_pos hmis]

/-- Pair bytes into UTF-16 code units (a trailing odd byte is dropped, as
`errors="ignore"` does). -/
def utf16le_units : List Nat → List Nat
  | b0 :: b1 :: rest => (b0 + 256 * b1) :: utf16le_units rest
  | _ => []

/-- Combine UTF-16 code units into code points, dropping unpaired
surrogates (`bytes.decode("utf-16le", errors="ignore")`). -/
def utf16le_decode_units : List Nat → List Nat
  | [] => []
  | [u] => if 55296 ≤ u ∧ u < 57344 then [] else [u]
  | u :: v :: rest =>
    if 55296 ≤ u ∧ u < 56320 then
      if 56320 ≤ v ∧ v < 57344 then
        (65536 + (u - 55296) * 1024 + (v - 56320)) :: utf16le_decode_units rest
      else utf16le_decode_units (v :: rest)
    else if 56320 ≤ u ∧ u < 57344 then utf16le_decode_units (v :: rest)
    else u :: utf16le_decode_units (v :: rest)

/-- `bytes.decode("utf-16le", errors="ignore")` over byte lists. -/
def utf16le_decode (bytes : List Nat) : List Nat :=
  utf16le_decode_units (utf16le_units bytes)

/-- C9 counterexample: an SST entry whose text is the surrogate-pair
decoding of the 4 bytes `00 D8 00 DC` (one astral character occupying 4
byte positions).  Its hyphen-preserving mask is the single character `'*'`,
which encodes to 2 bytes — not the 4 recorded byte positions — so the
redaction raises `ValueError("raw 길이 mismatch")` and the whole document's
redaction aborts: the second, perfectly maskable SST entry is never
processed, contradicting the claim that the write is refused for that one
span only while the rest of the document continues.  The normalization and
the sensitivity oracle (external collaborators) are the identity map and
an oracle flagging the entire string. -/
theorem C9_abort_counterexample :
    redact_sst_loop (fun t => (t, fun i => if i < t.length then some i else none))
      (fun norm => if norm = [] then [] else [(0, norm.length)])
      (List.replicate 120 0)
      [⟨utf16le_decode [0, 216, 0, 220], 1, [100, 101, 102, 103]⟩,
       ⟨[65], 1, [104, 105]⟩]
      = .error "raw length mismatch" := by
  rfl

/-- Witness for C9's amended theorem at the concrete mismatching entry. -/
theorem C9_length_mismatch_aborts_document_witness :
    redact_sst_loop (fun t => (t, fun i => if i < t.length then some i else none))
      (fun norm => if norm = [] then [] else [(0, norm.length)])
      (List.replicate 104 0)
      [⟨utf16le_decode [0, 216, 0, 220], 1, [100, 101, 102, 103]⟩]
      = .error "raw length mismatch" :=
  C9_length_mismatch_aborts_document
    (fun t => (t, fun i => if i < t.length then some i else none))
    (fun norm => if norm = [] then [] else [(0, norm.length)])
    (List.replicate 104 0) [42] [42, 0]
    ⟨utf16le_decode [0, 216, 0, 220], 1, [100, 101, 102, 103]⟩ []
    (by rfl) (by rfl) (by decide)

/-- `bytes.decode("cp1252", errors="ignore")` for one byte: 0x80–0x9F map
through the Windows-1252 table (five undefined bytes are dropped), all
other bytes decode to themselves. -/
def cp1252DecodeByte (b : Nat) : Option Nat :=
  if b = 0x80 then some 0x20AC
  else if b = 0x82 then some 0x201A
  else if b = 0x83 then some 0x0192
  else if b = 0x84 then some 0x201E
  else if b = 0x85 then some 0x2026
  else if b = 0x86 then some 0x2020
  else if b = 0x87 then some 0x2021
  else if b = 0x88 then some 0x02C6
  else if b = 0x89 then some 0x2030
  else if b = 0x8A then some 0x0160
  else if b = 0x8B then some 0x2039
  else if b = 0x8C then some 0x0152
  else if b = 0x8E then some 0x017D
  else if b = 0x91 then some 0x2018
  else if b = 0x92 then some 0x2019
  else if b = 0x93 then some 0x201C
  else if b = 0x94 then some 0x201D
  else if b = 0x95 then some 0x2022
  else if b = 0x96 then some 0x2013
  else if b = 0x97 then some 0x2014
  else if b = 0x98 then some 0x02DC
  else if b = 0x99 then some 0x2122
  else if b = 0x9A then some 0x0161
  else if b = 0x9B then some 0x203A
  else if b = 0x9C then some 0x0153
  else if b = 0x9E then some 0x017E
  else if b = 0x9F then some 0x0178
  else if b = 0x81 ∨ b = 0x8D ∨ b = 0x8F ∨ b = 0x90 ∨ b = 0x9D then none
  else some b

/-- `bytes.decode("cp1252", errors="ignore")`. -/
def cp1252_decode (bytes : List Nat) : List Nat :=
  bytes.filterMap cp1252DecodeByte

/-- `src/server/modules/doc_module.py::_decode_piece`: cp1252 for compressed
pieces, UTF-16LE otherwise. -/
def decode_piece (chunk : List Nat) (fCompressed : Bool) : List Nat :=
  if fCompressed then cp1252_decode chunk else utf16le_decode chunk

/-- The scan of Python `hay.find(target, start)`: smallest `i ≥ start` at
which `target` occurs (`none` for Python's `-1`).  `fuel` bounds the scan;
`hay.length + 1` positions always suffice. -/
def strFindGo (hay target : List Nat) : Nat → Nat → Option Nat
  | _, 0 => none
  | i, fuel + 1 =>
    if i + target.length ≤ hay.length then
      if matchesAt target (hay.drop i) then some i
      else strFindGo hay target (i + 1) fuel
    else none

/-- Python `hay.find(target, start)`. -/
def strFind (hay target : List Nat) (start : Nat) : Option Nat :=
  strFindGo hay target start (hay.length + 1)

/-- The replacement bytes `doc_module.py::replace_text` writes over one
matched span: `b"*" * byte_len` for a compressed piece,
`(b"*\x00") * (byte_len // 2)` otherwise — uniform asterisks, with no
dependence on the matched text's characters (the hyphen-preserving
`replacement_text` string computed a few lines earlier is never used for
the byte write). -/
def replacement_bytes_for (target : List Nat) (fC : Bool) : List Nat :=
  if fC then List.replicate (target.length * 1) 42
  else (List.replicate (target.length * 2 / 2) [42, 0]).flatten

/-- The `while True: idx = original_text.find(target_text, search_start)`
loop of `replace_text`, writing `replacement_bytes_for` over each match's
byte range in the accumulating WordDocument copy.  `fuel` bounds the loop;
`orig.length + 1` rounds suffice for a nonempty target (for an empty target
the Python loop would not terminate either). -/
def replace_in_piece_go (orig target : List Nat) (start_pos bpc : Nat) (fC : Bool) :
    Nat → Nat → List Nat → List Nat
  | _, 0, acc => acc
  | search, fuel + 1, acc =>
    match strFind orig target search with
    | none => acc
    | some idx =>
      replace_in_piece_go orig target start_pos bpc fC (idx + target.length) fuel
        (sliceAssign acc (start_pos + idx * bpc) (replacement_bytes_for target fC))

/-- The per-target piece loop of `replace_text`: decode each piece's bytes
(from the pristine WordDocument copy), find the target in the decoded text
and overwrite the corresponding byte ranges in the accumulator; pieces
reaching past the WordDocument's end are skipped. -/
def replace_text_one_target (word_data : List Nat) (pieces : List Pcd)
    (target : List Nat) (acc : List Nat) : List Nat :=
  pieces.foldl (fun acc p =>
    if p.fc + p.byte_count > word_data.length then acc
    else
      let orig := decode_piece (pySlice word_data p.fc (p.fc + p.byte_count)) p.fCompressed
      replace_in_piece_go orig target p.fc (if p.fCompressed then 1 else 2)
        p.fCompressed 0 (orig.length + 1) acc) acc

/-- `src/server/modules/doc_module.py::replace_text` from the point where
the WordDocument and Table stream bytes are in hand, returning the mutated
WordDocument stream (the olefile container rebuild is external; the
source's failure paths return the original bytes, modelled by returning
`word_data` unchanged).  The source also computes a hyphen-preserving
`replacement_text` string per target, but never uses it: the bytes written
are `replacement_bytes_for`. -/
def replace_text_core (word_data table_data : List Nat)
    (targets : List (List Nat)) : List Nat :=
  match get_clx_data word_data table_data with
  | none => word_data
  | some clx =>
    if clx = [] then word_data
    else
      let plcpcd := extract_plcpcd clx
      if plcpcd = [] then word_data
      else
        let pieces := parse_plcpcd plcpcd
        targets.foldl
          (fun acc target => replace_text_one_target word_data pieces target acc)
          word_data

set_option maxRecDepth 80000 in
/-- C10 counterexample: a compressed one-piece document whose text is
`"a-b"`, redacted for the matched string `"a-b"`.  The DOC path writes
uniform `b"***"` over the span, so the output byte at the hyphen's position
is `'*'` (42), not the preserved `'-'` (45) the claim requires of the DOC
redaction path.  (WordDocument: the 3 text bytes, zero padding up to the
FIB fields `fcClx = 0`, `lcbClx = 21` at 0x01A2/0x01A6; Table stream: a CLX
with a tag-2 PlcPcd of one piece, `fc = 0`, compressed, cp range 0..3.) -/
theorem C10_doc_hyphen_counterexample :
    (replace_text_core
        ([97, 45, 98] ++ List.replicate 415 0 ++ u32le 0 ++ u32le 21)
        ([2] ++ u32le 16 ++ u32le 0 ++ u32le 3 ++ [0, 0, 0, 0, 0, 64, 0, 0])
        [[97, 45, 98]]).getD 1 0 = 42 ∧ (42 : Nat) ≠ 45 := by
  constructor
  · rfl
  · decide

/-- C10 amended: the XLS path's mask (`mask_except_hypen`) preserves the
length and the hyphen positions of the matched text, every non-hyphen
character becoming `'*'`; the DOC path (`replace_text`) does not — the
bytes it writes over a matched span (`replacement_bytes_for`) are uniform
`'*'` (with NUL high bytes in the 2-byte encoding) and never contain a
hyphen, regardless of the matched text. -/
theorem C10_hyphen_mask :
    (∀ s : List Nat, (mask_except_hypen s).length = s.length ∧
      ∀ i, i < s.length →
        (mask_except_hypen s).getD i 0 = if s.getD i 0 = 45 then 45 else 42) ∧
    (∀ (target : List Nat) (fC : Bool), ∀ b ∈ replacement_bytes_for target fC,
      b = 42 ∨ b = 0) := by
  constructor
  · intro s
    refine ⟨mask_except_hypen_length s, ?_⟩
    intro i hi
    unfold mask_except_hypen
    rw [List.getD_eq_getElem?_getD, List.getElem?_map, List.getElem?_eq_getElem hi]
    simp only [Option.map_some', Option.getD_some]
    rw [List.getD_eq_getElem s 0 hi]
  · intro target fC b hb
    unfold replacement_bytes_for at hb
    by_cases hc : fC
    · rw [if_pos hc] at hb
      exact Or.inl (List.eq_of_mem_replicate hb)
    · rw [if_neg hc] at hb
      obtain ⟨l, hl, hbl⟩ := List.mem_flatten.mp hb
      have hl42 := List.eq_of_mem_replicate hl
      subst hl42
      simpa using hbl

/-- Witness for C10's amended theorem on the matched text `"a-b"`. -/
theorem C10_hyphen_mask_witness :
    (mask_except_hypen [97, 45, 98]).getD 1 0 = 45 ∧ ((42 : Nat) = 42 ∨ (42 : Nat) = 0) := by
  constructor
  · rw [(C10_hyphen_mask.1 [97, 45, 98]).2 1 (by decide)]
    decide
  · exact C10_hyphen_mask.2 [97, 45, 98] true 42 (by decide)
